import Mathlib

/-!
Verification development for the `ChatCompletion` resource of the qianfan SDK
(`src/qianfan/resources/llm/chat_completion.py`).

The embedding below translates the continuation ("auto_concat_truncate")
machinery of `ChatCompletion.do` / `ChatCompletion.ado`,
`_stream_concat_truncated` / `_async_stream_concat_truncated`, and the
erniebot dispatch head into Lean.  The async variants are line-for-line
identical to the sync ones (modulo `await`), so a single embedding covers
both.

Python mutable-list identity is modelled with an explicit store (`Store`):
a Python list object is an address into the store, reads and in-place
appends go through the store, and `copy.deepcopy` allocates a fresh
address.  This makes aliasing facts (which list object a continuation
round appends to) provable rather than assumed.
-/

/-- Role enumeration, mirroring `QfRole` of `qianfan/resources/typing.py`. -/
inductive QfRole where
  | System
  | User
  | Assistant
deriving DecidableEq, Repr

/-- One entry of a `QfMessages` buffer: a role-tagged content string. -/
structure QfMessage where
  role : QfRole
  content : String
deriving DecidableEq, Repr

/-- One plain transport record `{role, content}` as used in the raw
message lists passed to the request executor. -/
structure Record where
  role : String
  content : String
deriving DecidableEq, Repr

/-- Modelled from the spec: the Message Buffer's `toRecordList` operation
(`QfMessages._to_list` in `qianfan/resources/typing.py`, which is not part
of the sources under review): role names for the records. -/
def roleStr : QfRole → String
  | QfRole.System => "system"
  | QfRole.User => "user"
  | QfRole.Assistant => "assistant"

/-- Modelled from the spec: `QfMessages._to_list` produces an ordered
sequence of plain `{role, content}` records for transport, fresh (the
caller's buffer is not aliased by the produced list). -/
def qfToList (l : List QfMessage) : List Record :=
  l.map (fun m => ⟨roleStr m.role, m.content⟩)

/-- One response envelope with both continuation-relevant body fields
present.  `result` models `body["result"]` (which `resp["result"]` reads),
`is_truncated` models `body["is_truncated"]`, `is_end` models
`body["is_end"]`, and `extra` stands for the remaining raw body entries. -/
structure Envelope where
  result : String
  is_truncated : Bool
  is_end : Bool
  extra : List (String × String)
deriving DecidableEq, Repr

/-- Default envelope used to totalize list indexing of executor scripts. -/
def dfltEnv : Envelope := ⟨"", false, false, []⟩

/-- The amendment `resp.body["result"] = entire_content` (line 308):
overwrite the result field of the final envelope, all other body entries
untouched. -/
def amendResult (e : Envelope) (t : String) : Envelope :=
  { e with result := t }

/-- Heap of Python list-of-record objects; a list object is an address
(index) into the store. -/
abbrev Store := List (List Record)

/-- Read the list object at an address (out-of-range reads give `[]`;
all addresses used by the embedding are in range). -/
def readL : Store → Nat → List Record
  | [], _ => []
  | v :: _, 0 => v
  | _ :: s, a + 1 => readL s a

/-- Overwrite the list object at an address (in-place mutation of one
Python list object; other addresses untouched). -/
def writeL : Store → Nat → List Record → Store
  | [], _, _ => []
  | _ :: s, 0, v => v :: s
  | w :: s, a + 1, v => w :: writeL s a v

/-- Allocate a fresh list object holding `v`, returning the new store and
the fresh address. -/
def allocL (s : Store) (v : List Record) : Store × Nat :=
  (s ++ [v], s.length)

/-- The number of objects in the store. -/
def storeLen (s : Store) : Nat := s.length

/-- The `messages` argument of `do`/`ado`: either a raw record list (a
mutable Python list object, identified by its store address) or a
`QfMessages` buffer.  The `QfMessages` object itself is never mutated by
the code under review (it is deep-copied, or serialized by `_to_list`
into a fresh list), so it is carried by value. -/
inductive MessagesIn where
  | recordsRef : Nat → MessagesIn
  | qf : List QfMessage → MessagesIn
deriving DecidableEq, Repr

/-- Lines 236-239: `kwargs["messages"] = messages._to_list()` for a
`QfMessages`, else `kwargs["messages"] = messages` — the value of the
record list sent with the first request. -/
def normalizeIn (s : Store) (m : MessagesIn) : List Record :=
  match m with
  | MessagesIn.recordsRef a => readL s a
  | MessagesIn.qf l => qfToList l

/-- The working buffer `msgs` of the non-streaming continuation loop: the
deep copy of the union-typed `messages` (line 284, `copy.deepcopy`).  It
is a fresh unaliased object, so it is carried by value; the records form
still lives in the store to keep in-place appends explicit. -/
inductive WorkRef where
  | recordsAt : Nat → WorkRef
  | qf : List QfMessage → WorkRef
deriving DecidableEq, Repr

/-- Value snapshot of a union-typed message argument at request time:
what `kwargs["messages"]` holds when `_do` serializes it. -/
inductive WorkBuf where
  | records : List Record → WorkBuf
  | qf : List QfMessage → WorkBuf
deriving DecidableEq, Repr

/-- Whether a request's messages argument is in the plain record-list
transport form (as opposed to a `QfMessages` object). -/
def isRecordsForm : WorkBuf → Bool
  | WorkBuf.records _ => true
  | WorkBuf.qf _ => false

/-- Length of a request buffer snapshot. -/
def bufLen : WorkBuf → Nat
  | WorkBuf.records l => l.length
  | WorkBuf.qf l => l.length

/-- Common view of a buffer snapshot as role/content pairs, used to state
prefix preservation across the two buffer forms. -/
def bufData : WorkBuf → List (String × String)
  | WorkBuf.records l => l.map (fun r => (r.role, r.content))
  | WorkBuf.qf l => l.map (fun m => (roleStr m.role, m.content))

/-- The continuation-round record entries for a raw record list
(lines 290-291 / 358-359): `{"content": cur, "role": "assistant"}` then
`{"content": "继续", "role": "user"}`. -/
def roundRecords (cur : String) : List Record :=
  [⟨"assistant", cur⟩, ⟨"user", "继续"⟩]

/-- One continuation round's appends, value level (lines 286-291 /
482-487): `Assistant(cur)` then `User("继续")`, through the matching
`isinstance` branch. -/
def valAppend (b : WorkBuf) (cur : String) : WorkBuf :=
  match b with
  | WorkBuf.qf l =>
      WorkBuf.qf (l ++ [⟨QfRole.Assistant, cur⟩, ⟨QfRole.User, "继续"⟩])
  | WorkBuf.records l => WorkBuf.records (l ++ roundRecords cur)

/-- One continuation round's appends on the working reference: a records
deep copy is mutated in place through the store, a `QfMessages` deep copy
is updated by value (it is fresh and unaliased). -/
def refAppend (s : Store) (b : WorkRef) (cur : String) : Store × WorkRef :=
  match b with
  | WorkRef.recordsAt a =>
      (writeL s a (readL s a ++ roundRecords cur), WorkRef.recordsAt a)
  | WorkRef.qf l =>
      (s, WorkRef.qf (l ++ [⟨QfRole.Assistant, cur⟩, ⟨QfRole.User, "继续"⟩]))

/-- Current value of the working buffer (what a request issued now would
carry). -/
def refSnapshot (s : Store) (b : WorkRef) : WorkBuf :=
  match b with
  | WorkRef.recordsAt a => WorkBuf.records (readL s a)
  | WorkRef.qf l => WorkBuf.qf l

/-- Whether a working reference's address is in range of the store. -/
def refValidB (s : Store) (b : WorkRef) : Bool :=
  match b with
  | WorkRef.recordsAt a => a < storeLen s
  | WorkRef.qf _ => true

/-- Line 284: `msgs = copy.deepcopy(messages)` — a records argument is
copied into a fresh list object, a `QfMessages` is copied by value. -/
def deepcopyIn (s : Store) (m : MessagesIn) : Store × WorkRef :=
  match m with
  | MessagesIn.recordsRef a =>
      let p := allocL s (readL s a)
      (p.1, WorkRef.recordsAt p.2)
  | MessagesIn.qf l => (s, WorkRef.qf l)

/-- The non-streaming continuation loop of `ChatCompletion.do`
(lines 285-310; `ado` lines 481-506 are identical).  Entered with
`is_truncated` known true.  `exec k` is the request executor's reply to
the k-th continuation call.  Fuel bounds the number of rounds modelled;
the source loop itself is unbounded.  Returns the final envelope (none on
fuel exhaustion, i.e. the source would still be looping), the snapshots of
the messages argument of every issued request in call order, and the
final store. -/
def doConcatLoop :
    Nat → (Nat → Envelope) → Store → WorkRef → String → String →
      Option Envelope × List WorkBuf × Store
  | 0, _, s, _, _, _ => (none, [], s)
  | fuel + 1, exec, s, buf, cur, entire =>
    let p := refAppend s buf cur
    let resp := exec 0
    let entire2 := entire ++ resp.result
    let req := refSnapshot p.1 p.2
    if resp.is_truncated then
      let r := doConcatLoop fuel (fun n => exec (n + 1)) p.1 p.2 resp.result entire2
      (r.1, req :: r.2.1, r.2.2)
    else
      (some (amendResult resp entire2), [req], p.1)

/-- The non-streaming path of `ChatCompletion.do` after the erniebot
dispatch head (lines 256-310): first executor call, then — when
`auto_concat_truncate` — seed `cur_content`/`entire_content`/`is_truncated`
from the first response, deep-copy the messages argument, and run the
continuation loop.  `exec 0` is the first call's reply, `exec (k+1)` the
k-th continuation reply.  Returns the final envelope, all issued requests'
messages snapshots in call order, and the final store. -/
def doNonStream (s : Store) (m : MessagesIn) (exec : Nat → Envelope)
    (fuel : Nat) (auto_concat_truncate : Bool) :
    Option Envelope × List WorkBuf × Store :=
  let firstReq : WorkBuf := WorkBuf.records (normalizeIn s m)
  let resp0 := exec 0
  if auto_concat_truncate = false then
    (some resp0, [firstReq], s)
  else
    let cur := resp0.result
    let p := deepcopyIn s m
    if resp0.is_truncated then
      let r := doConcatLoop fuel (fun n => exec (n + 1)) p.1 p.2 cur cur
      (r.1, firstReq :: r.2.1, r.2.2)
    else
      (some resp0, [firstReq], p.1)

/-- The `cur_content` accumulation over one stream's chunks: `cur_content`
starts at `""` and each iteration does `cur_content += r["result"]`
(lines 348-350, 372-373). -/
def concatResults (l : List Envelope) : String :=
  l.foldl (fun acc e => acc ++ e.result) ""

/-- Right-nested concatenation of the result fragments of a list of
envelopes (specification-side form of `concatResults`). -/
def joinResults : List Envelope → String
  | [] => ""
  | e :: t => e.result ++ joinResults t

/-- The value of `is_truncated` after iterating one stream's chunks:
`is_truncated = r["is_truncated"]` is reassigned per chunk (line 374), so
after the loop it is the last chunk's flag; an empty stream leaves the
previous value, which on entry to the while body is `True`. -/
def lastTruncD (l : List Envelope) : Bool :=
  match l.getLast? with
  | some e => e.is_truncated
  | none => true

/-- The streaming continuation loop of `_stream_concat_truncated`
(lines 352-377; `_async_stream_concat_truncated` lines 526-550 are
identical).  `addr` is the store address of the Python list held in the
helper's `messages` parameter — the appends of lines 358-359 mutate that
very object in place.  `exec k` is the chunk list of the k-th continuation
streaming call.  Entered with `is_truncated = True` (line 352).  Returns
the envelopes yielded by the loop, the record-list value of each issued
request, and the final store; `none` on fuel exhaustion. -/
def streamConcatLoop :
    Nat → (Nat → List Envelope) → Store → Nat → String →
      Option (List Envelope × List (List Record) × Store)
  | 0, _, _, _, _ => none
  | fuel + 1, exec, s, addr, cur =>
    let s2 := writeL s addr (readL s addr ++ roundRecords cur)
    let chunk := exec 0
    let cur2 := concatResults chunk
    let req := readL s2 addr
    if lastTruncD chunk then
      match streamConcatLoop fuel (fun n => exec (n + 1)) s2 addr cur2 with
      | none => none
      | some r => some (chunk ++ r.1, req :: r.2.1, r.2.2)
    else
      some (chunk, [req], s2)

/-- The streaming path of `ChatCompletion.do` with
`auto_concat_truncate=True` (lines 268-279 feeding `_stream_concat_truncated`,
lines 348-377).  `exec 0` is the first streaming call's chunk list,
`exec (k+1)` the k-th continuation call's.  The helper's `messages`
parameter is `kwargs.pop("messages")`: for a raw record-list caller it is
the caller's own list object (line 239 stores the same object), for a
`QfMessages` caller it is the fresh list made by `_to_list` (line 237).
Yields every chunk of the first stream (accumulating `cur_content`), then
runs the loop.  Returns all yielded envelopes in order, all issued
requests' messages snapshots in call order (first call included), and the
final store. -/
def doStream (s : Store) (m : MessagesIn) (exec : Nat → List Envelope)
    (fuel : Nat) :
    Option (List Envelope × List WorkBuf × Store) :=
  let firstReq : WorkBuf := WorkBuf.records (normalizeIn s m)
  let first := exec 0
  let p : Store × Nat :=
    match m with
    | MessagesIn.recordsRef a => (s, a)
    | MessagesIn.qf l => allocL s (qfToList l)
  let cur := concatResults first
  match streamConcatLoop fuel (fun n => exec (n + 1)) p.1 p.2 cur with
  | none => none
  | some r =>
      some (first ++ r.1, firstReq :: r.2.1.map WorkBuf.records, r.2.2)

/-- Configuration switches consulted by the erniebot dispatch head
(lines 240-243 / 435-438). -/
structure QfConfig where
  DISABLE_EB_SDK : Bool
  EB_SDK_INSTALLED : Bool
deriving DecidableEq, Repr

/-- Python `str.lower()` on the ASCII model names involved: lower-case
every character. -/
def pyLower (s : String) : String := String.mk (s.data.map Char.toLower)

/-- Lines 240-243: the erniebot path is taken iff `DISABLE_EB_SDK` is
false, `EB_SDK_INSTALLED` is true, and `model` is (non-None and) one of
`["ERNIE-Bot-turbo", "ERNIE-Bot"]`. -/
def ebPathTaken (cfg : QfConfig) (model : Option String) : Bool :=
  !cfg.DISABLE_EB_SDK && cfg.EB_SDK_INSTALLED &&
    (match model with
     | some mn => ["ERNIE-Bot-turbo", "ERNIE-Bot"].contains mn
     | none => false)

/-- Lines 250-254: on the erniebot path, `"ERNIE-Bot"` is first remapped
to `"ernie-bot-3.5"`, then the name is lower-cased and passed to the
backend. -/
def ebTargetName (model : String) : String :=
  pyLower (if model = "ERNIE-Bot" then "ernie-bot-3.5" else model)

/-- Outcome of a `do` call: either delegated to the erniebot backend
(carrying the model name handed to it; its result is returned directly,
bypassing all continuation logic) or handled natively. -/
inductive DoOutcome where
  | eb : String → DoOutcome
  | native : Option Envelope × List WorkBuf × Store → DoOutcome
deriving DecidableEq, Repr

/-- The function `ChatCompletion.do` for non-streaming calls, dispatch head included
(lines 236-310; `ado` lines 431-506 are identical modulo `await`): if the
erniebot conditions hold the call is delegated and its result returned
directly; otherwise the native path runs. -/
def chatDo (cfg : QfConfig) (model : Option String) (s : Store)
    (m : MessagesIn) (exec : Nat → Envelope) (fuel : Nat)
    (auto_concat_truncate : Bool) : DoOutcome :=
  match model with
  | some mn =>
      if ebPathTaken cfg (some mn) then
        DoOutcome.eb (ebTargetName mn)
      else
        DoOutcome.native (doNonStream s m exec fuel auto_concat_truncate)
  | none => DoOutcome.native (doNonStream s m exec fuel auto_concat_truncate)

/-- A response envelope whose continuation-relevant body fields may be
absent, for modelling field access on the raw body mapping. -/
structure RawEnvelope where
  result : Option String
  is_truncated : Option Bool
  extra : List (String × String)
deriving DecidableEq, Repr

/-- Modelled from the spec: `QfResponse.__getitem__`
(`qianfan/resources/typing.py`, not part of the sources under review)
reads the raw body mapping; a missing key is a contract-violation failure
(KeyError), not a silent default. -/
def rawResult (r : RawEnvelope) : Except String String :=
  match r.result with
  | some v => Except.ok v
  | none => Except.error "KeyError: result"

/-- Modelled from the spec: body access for `is_truncated`; a missing key
is a contract-violation failure, not a silent default. -/
def rawTruncated (r : RawEnvelope) : Except String Bool :=
  match r.is_truncated with
  | some v => Except.ok v
  | none => Except.error "KeyError: is_truncated"

/-- Overwrite of `body["result"]` on a raw envelope. -/
def amendRaw (e : RawEnvelope) (t : String) : RawEnvelope :=
  { e with result := some t }

/-- Fallible version of the non-streaming continuation loop: each round
reads `resp["result"]` then `resp["is_truncated"]` (lines 304-306) and a
missing field aborts the whole call with the access error.  The requests'
buffers play no role in the error behavior and are elided here. -/
def doConcatLoopE :
    Nat → (Nat → RawEnvelope) → WorkBuf → String → String →
      Except String (Option RawEnvelope)
  | 0, _, _, _, _ => Except.ok none
  | fuel + 1, exec, msgs, cur, entire =>
    let msgs2 := valAppend msgs cur
    match rawResult (exec 0) with
    | Except.error e => Except.error e
    | Except.ok frag =>
      match rawTruncated (exec 0) with
      | Except.error e => Except.error e
      | Except.ok t =>
        if t then
          doConcatLoopE fuel (fun n => exec (n + 1)) msgs2 frag (entire ++ frag)
        else
          Except.ok (some (amendRaw (exec 0) (entire ++ frag)))

/-- Fallible version of the non-streaming `auto_concat_truncate` path:
`cur_content = resp["result"]` then `is_truncated = resp["is_truncated"]`
(lines 281-283) before the loop; a missing field on any consumed envelope
aborts the call with the access error and no envelope is returned. -/
def doNonStreamE (exec : Nat → RawEnvelope) (fuel : Nat) (msgs : WorkBuf) :
    Except String (Option RawEnvelope) :=
  match rawResult (exec 0) with
  | Except.error e => Except.error e
  | Except.ok frag =>
    match rawTruncated (exec 0) with
    | Except.error e => Except.error e
    | Except.ok t =>
      if t then
        doConcatLoopE fuel (fun n => exec (n + 1)) msgs frag frag
      else
        Except.ok (some (exec 0))

/-- Whether a fallible run aborted with an error. -/
def isError : Except String (Option RawEnvelope) → Bool
  | Except.error _ => true
  | Except.ok _ => false

/-- Totalized indexing of a finite executor script. -/
def execOfList (l : List Envelope) (n : Nat) : Envelope :=
  l.getD n dfltEnv

/-- Executor behavior with `n - 1` truncated replies followed by
non-truncated ones: reply `k` (0-based) is truncated iff `k + 1 < n`. -/
def truncThenFinal (n : Nat) (k : Nat) : Envelope :=
  if k + 1 < n then ⟨"x", true, false, []⟩ else ⟨"y", false, true, []⟩

/-- Concatenation of the chunk lists of the first `k` streaming calls, in
call order. -/
def callsConcat (exec : Nat → List Envelope) : Nat → List Envelope
  | 0 => []
  | k + 1 => exec 0 ++ callsConcat (fun n => exec (n + 1)) k

/-! ### Store lemmas -/

theorem readL_writeL_same : ∀ (s : Store) (a : Nat) (v : List Record),
    a < s.length → readL (writeL s a v) a = v := by
  intro s
  induction s with
  | nil => intro a v h; simp at h
  | cons w t ih =>
    intro a v h
    cases a with
    | zero => rfl
    | succ b =>
      simp only [writeL, readL]
      exact ih b v (by simpa using h)

theorem readL_writeL_other : ∀ (s : Store) (a b : Nat) (v : List Record),
    a ≠ b → readL (writeL s b v) a = readL s a := by
  intro s
  induction s with
  | nil => intro a b v _; rfl
  | cons w t ih =>
    intro a b v hab
    cases b with
    | zero =>
      cases a with
      | zero => exact absurd rfl hab
      | succ a2 => rfl
    | succ b2 =>
      cases a with
      | zero => rfl
      | succ a2 =>
        simp only [writeL, readL]
        exact ih a2 b2 v (fun h => hab (by omega))

theorem writeL_length : ∀ (s : Store) (a : Nat) (v : List Record),
    (writeL s a v).length = s.length := by
  intro s
  induction s with
  | nil => intro a v; rfl
  | cons w t ih =>
    intro a v
    cases a with
    | zero => rfl
    | succ b => simp only [writeL, List.length_cons, ih]

theorem readL_append_lt : ∀ (s t : Store) (a : Nat),
    a < s.length → readL (s ++ t) a = readL s a := by
  intro s
  induction s with
  | nil => intro t a h; simp at h
  | cons w u ih =>
    intro t a h
    cases a with
    | zero => rfl
    | succ b =>
      simp only [List.cons_append, readL]
      exact ih t b (by simpa using h)

/-! ### String accumulation lemmas -/

theorem foldl_append_result : ∀ (l : List Envelope) (acc : String),
    l.foldl (fun a e => a ++ e.result) acc = acc ++ joinResults l := by
  intro l
  induction l with
  | nil => intro acc; simp [joinResults]
  | cons e t ih =>
    intro acc
    simp only [List.foldl_cons, joinResults, ih, String.append_assoc]

theorem concatResults_eq_join (l : List Envelope) :
    concatResults l = joinResults l := by
  have h := foldl_append_result l ""
  simpa [concatResults] using h

/-! ### The non-streaming continuation loop on a finite response script -/

/-- A response script in which every response but the last reports
`is_truncated = true` and the last reports `is_truncated = false`. -/
def truncSeqP : List Envelope → Prop
  | [] => False
  | [e] => e.is_truncated = false
  | e :: f :: t => e.is_truncated = true ∧ truncSeqP (f :: t)

theorem execOfList_shift (x : Envelope) (l : List Envelope) :
    (fun n => execOfList (x :: l) (n + 1)) = execOfList l := by
  funext n
  simp [execOfList]

theorem loopSuccess : ∀ (l : List Envelope), truncSeqP l →
    ∀ fuel, l.length ≤ fuel → ∀ (s : Store) (buf : WorkRef) (cur entire : String),
    ∃ last reqs s2,
      l.getLast? = some last ∧
      doConcatLoop fuel (execOfList l) s buf cur entire =
        (some (amendResult last (entire ++ joinResults l)), reqs, s2) ∧
      reqs.length = l.length := by
  intro l
  induction l with
  | nil => intro hT; exact absurd hT (by simp [truncSeqP])
  | cons e rest ih =>
    intro hT fuel hf s buf cur entire
    cases fuel with
    | zero => simp at hf
    | succ f =>
      have hexec : execOfList (e :: rest) 0 = e := rfl
      cases rest with
      | nil =>
        have hE : e.is_truncated = false := hT
        refine ⟨e, [refSnapshot (refAppend s buf cur).1 (refAppend s buf cur).2],
          (refAppend s buf cur).1, rfl, ?_, rfl⟩
        simp only [doConcatLoop, hexec, hE, Bool.false_eq_true, if_false,
          joinResults, String.append_empty]
      | cons g t =>
        have hE : e.is_truncated = true := hT.1
        have hRest : truncSeqP (g :: t) := hT.2
        have hshift : (fun n => execOfList (e :: g :: t) (n + 1)) = execOfList (g :: t) :=
          execOfList_shift e (g :: t)
        have hlen : (g :: t).length ≤ f := by
          simp only [List.length_cons] at hf ⊢
          omega
        obtain ⟨last, reqs, s2, hLast, hRun, hLen⟩ :=
          ih hRest f hlen (refAppend s buf cur).1 (refAppend s buf cur).2
            e.result (entire ++ e.result)
        refine ⟨last, refSnapshot (refAppend s buf cur).1 (refAppend s buf cur).2 :: reqs,
          s2, ?_, ?_, ?_⟩
        · rw [List.getLast?_cons_cons]
          exact hLast
        · simp only [doConcatLoop, hexec, hE, if_true, hshift, hRun, joinResults,
            String.append_assoc]
        · simp [hLen]

theorem truncSeqP_of_indexed : ∀ (l : List Envelope) (h0 : l ≠ []),
    (∀ i, i + 1 < l.length → (l.getD i dfltEnv).is_truncated = true) →
    (l.getLast h0).is_truncated = false → truncSeqP l := by
  intro l
  induction l with
  | nil => intro h0; exact absurd rfl h0
  | cons e rest ih =>
    intro h0 hInit hLast
    cases rest with
    | nil =>
      simpa [truncSeqP, List.getLast] using hLast
    | cons g t =>
      constructor
      · have := hInit 0 (by simp)
        simpa using this
      · refine ih (by simp) ?_ ?_
        · intro i hi
          have := hInit (i + 1) (by simpa using Nat.succ_lt_succ hi)
          simpa [List.getD] using this
        · rw [← List.getLast_cons (l := g :: t) (by simp)]
          exact hLast

theorem truncSeqP_getLast : ∀ (l : List Envelope) (h : l ≠ []), truncSeqP l →
    (l.getLast h).is_truncated = false := by
  intro l
  induction l with
  | nil => intro h; exact absurd rfl h
  | cons e rest ih =>
    intro h hT
    cases rest with
    | nil => simpa [truncSeqP, List.getLast] using hT
    | cons g t =>
      rw [List.getLast_cons (by simp)]
      exact ih (by simp) hT.2

theorem doNonStreamSuccess : ∀ (l : List Envelope), truncSeqP l →
    ∀ fuel, l.length ≤ fuel → ∀ (s : Store) (m : MessagesIn),
    ∃ env reqs s2,
      doNonStream s m (execOfList l) fuel true = (some env, reqs, s2) ∧
      env.result = joinResults l ∧ env.is_truncated = false ∧
      reqs.length = l.length := by
  intro l hT fuel hf s m
  cases l with
  | nil => exact absurd hT (by simp [truncSeqP])
  | cons e rest =>
    have hexec : execOfList (e :: rest) 0 = e := rfl
    cases rest with
    | nil =>
      have hE : e.is_truncated = false := hT
      refine ⟨e, [WorkBuf.records (normalizeIn s m)], (deepcopyIn s m).1, ?_, ?_, hE, rfl⟩
      · simp only [doNonStream, hexec, hE, Bool.false_eq_true, if_false]
        simp
      · simp [joinResults, String.append_empty]
    | cons g t =>
      have hE : e.is_truncated = true := hT.1
      have hRest : truncSeqP (g :: t) := hT.2
      have hshift : (fun n => execOfList (e :: g :: t) (n + 1)) = execOfList (g :: t) :=
        execOfList_shift e (g :: t)
      have hlen : (g :: t).length ≤ fuel := by
        simp only [List.length_cons] at hf ⊢
        omega
      obtain ⟨last, reqs, s2, hLast, hRun, hLen⟩ :=
        loopSuccess (g :: t) hRest fuel hlen (deepcopyIn s m).1 (deepcopyIn s m).2
          e.result e.result
      have hLastT : last.is_truncated = false := by
        have hgl := truncSeqP_getLast (g :: t) (by simp) hRest
        rw [List.getLast?_eq_getLast (g :: t) (by simp)] at hLast
        injection hLast with h2
        rw [h2] at hgl
        exact hgl
      refine ⟨amendResult last (e.result ++ joinResults (g :: t)),
        WorkBuf.records (normalizeIn s m) :: reqs, s2, ?_, rfl, hLastT, ?_⟩
      · simp only [doNonStream, hexec, hE, if_true, hshift, hRun, joinResults]
        simp
      · simp [hLen]

theorem loopNone : ∀ (fuel : Nat) (exec : Nat → Envelope),
    (∀ n, (exec n).is_truncated = true) →
    ∀ (s : Store) (buf : WorkRef) (cur entire : String),
    (doConcatLoop fuel exec s buf cur entire).1 = none := by
  intro fuel
  induction fuel with
  | zero => intro exec _ s buf cur entire; rfl
  | succ f ih =>
    intro exec hAll s buf cur entire
    simp only [doConcatLoop, hAll 0, if_true]
    exact ih (fun n => exec (n + 1)) (fun n => hAll (n + 1)) _ _ _ _

/-- Executor script with `n` truncated replies followed by one final
non-truncated reply: `n + 1` responses in total. -/
def truncScript (n : Nat) : List Envelope :=
  List.replicate n ⟨"x", true, false, []⟩ ++ [⟨"y", false, true, []⟩]

theorem truncScript_truncSeqP : ∀ n, truncSeqP (truncScript n) := by
  intro n
  induction n with
  | zero => simp [truncScript, truncSeqP]
  | succ k ih =>
    have hrep : truncScript (k + 1) =
        ⟨"x", true, false, []⟩ :: truncScript k := by
      simp [truncScript, List.replicate_succ]
    rw [hrep]
    have hne : truncScript k ≠ [] := by
      simp [truncScript]
    cases hcase : truncScript k with
    | nil => exact absurd hcase hne
    | cons a b =>
      rw [hcase] at ih
      exact ⟨rfl, ih⟩

theorem truncScript_length (n : Nat) : (truncScript n).length = n + 1 := by
  simp [truncScript]

/-! ### Streaming loop lemmas -/

theorem streamLoopYields : ∀ (fuel : Nat) (exec : Nat → List Envelope)
    (s : Store) (addr : Nat) (cur : String) (out : List Envelope × List (List Record) × Store),
    streamConcatLoop fuel exec s addr cur = some out →
    out.1 = callsConcat exec out.2.1.length := by
  intro fuel
  induction fuel with
  | zero => intro exec s addr cur out h; exact absurd h (by simp [streamConcatLoop])
  | succ f ih =>
    intro exec s addr cur out h
    simp only [streamConcatLoop] at h
    by_cases hT : lastTruncD (exec 0) = true
    · rw [if_pos hT] at h
      cases hrec : streamConcatLoop f (fun n => exec (n + 1))
          (writeL s addr (readL s addr ++ roundRecords cur)) addr
          (concatResults (exec 0)) with
      | none => rw [hrec] at h; exact absurd h (by simp)
      | some r =>
        rw [hrec] at h
        simp only [Option.some.injEq] at h
        have hr := ih (fun n => exec (n + 1)) _ addr (concatResults (exec 0)) r hrec
        rw [← h]
        simp only [List.length_cons, callsConcat]
        rw [hr]
    · rw [if_neg hT] at h
      simp only [Option.some.injEq] at h
      rw [← h]
      simp [callsConcat]

theorem callsConcat_length : ∀ (k : Nat) (exec : Nat → List Envelope),
    (callsConcat exec k).length =
      ((List.range k).map (fun i => (exec i).length)).sum := by
  intro k
  induction k with
  | zero => intro exec; rfl
  | succ j ih =>
    intro exec
    simp only [callsConcat, List.length_append, List.range_succ_eq_map,
      List.map_cons, List.map_map, List.sum_cons]
    rw [ih (fun n => exec (n + 1))]
    congr 1

/-! ### Request-shape lemmas -/

/-- The fragment contents appended at the head of each continuation
round, for the non-streaming loop entered with fragment `cur`: fragment
`j + 1` is the `result` of the j-th continuation reply. -/
def fragList (exec : Nat → Envelope) (cur : String) : Nat → List String
  | 0 => []
  | k + 1 => cur :: fragList (fun n => exec (n + 1)) (exec 0).result k

/-- The fragment contents appended per round for the streaming loop:
fragment `j + 1` is the accumulated `result` text of the j-th continuation
stream. -/
def fragListS (exec : Nat → List Envelope) (cur : String) : Nat → List String
  | 0 => []
  | k + 1 => cur :: fragListS (fun n => exec (n + 1)) (concatResults (exec 0)) k

/-- One continuation round's appends on a plain record list
(lines 358-359). -/
def recRound (l : List Record) (c : String) : List Record :=
  l ++ roundRecords c

theorem fragList_length : ∀ (k : Nat) (exec : Nat → Envelope) (cur : String),
    (fragList exec cur k).length = k := by
  intro k
  induction k with
  | zero => intro exec cur; rfl
  | succ j ih =>
    intro exec cur
    simp only [fragList, List.length_cons, ih]

theorem fragListS_length : ∀ (k : Nat) (exec : Nat → List Envelope) (cur : String),
    (fragListS exec cur k).length = k := by
  intro k
  induction k with
  | zero => intro exec cur; rfl
  | succ j ih =>
    intro exec cur
    simp only [fragListS, List.length_cons, ih]

theorem valAppend_len (b : WorkBuf) (c : String) :
    bufLen (valAppend b c) = bufLen b + 2 := by
  cases b <;> simp [valAppend, bufLen, roundRecords]

theorem valAppend_data (b : WorkBuf) (c : String) :
    bufData b <+: bufData (valAppend b c) := by
  cases b with
  | records l =>
    simp only [valAppend, bufData, List.map_append]
    exact ⟨_, rfl⟩
  | qf l =>
    simp only [valAppend, bufData, List.map_append]
    exact ⟨_, rfl⟩

theorem foldl_valAppend_len : ∀ (frags : List String) (b : WorkBuf),
    bufLen (frags.foldl valAppend b) = bufLen b + 2 * frags.length := by
  intro frags
  induction frags with
  | nil => intro b; simp
  | cons c t ih =>
    intro b
    simp only [List.foldl_cons, List.length_cons, ih, valAppend_len]
    omega

theorem foldl_valAppend_data : ∀ (frags : List String) (b : WorkBuf),
    bufData b <+: bufData (frags.foldl valAppend b) := by
  intro frags
  induction frags with
  | nil => intro b; exact ⟨[], List.append_nil _⟩
  | cons c t ih =>
    intro b
    exact List.IsPrefix.trans (valAppend_data b c) (ih (valAppend b c))

theorem recRound_len (l : List Record) (c : String) :
    (recRound l c).length = l.length + 2 := by
  simp [recRound, roundRecords]

theorem foldl_recRound_len : ∀ (frags : List String) (l : List Record),
    (frags.foldl recRound l).length = l.length + 2 * frags.length := by
  intro frags
  induction frags with
  | nil => intro l; simp
  | cons c t ih =>
    intro l
    simp only [List.foldl_cons, List.length_cons, ih, recRound_len]
    omega

theorem foldl_recRound_sub : ∀ (frags : List String) (l : List Record),
    l <+: frags.foldl recRound l := by
  intro frags
  induction frags with
  | nil => intro l; exact ⟨[], List.append_nil _⟩
  | cons c t ih =>
    intro l
    exact List.IsPrefix.trans ⟨roundRecords c, rfl⟩ (ih (recRound l c))

theorem refAppend_snapshot (s : Store) (b : WorkRef) (c : String)
    (h : refValidB s b = true) :
    refSnapshot (refAppend s b c).1 (refAppend s b c).2 =
      valAppend (refSnapshot s b) c := by
  cases b with
  | recordsAt a =>
    simp only [refValidB, storeLen, decide_eq_true_eq] at h
    simp only [refAppend, refSnapshot, valAppend]
    rw [readL_writeL_same s a _ h]
  | qf l => rfl

theorem refAppend_valid (s : Store) (b : WorkRef) (c : String)
    (h : refValidB s b = true) :
    refValidB (refAppend s b c).1 (refAppend s b c).2 = true := by
  cases b with
  | recordsAt a =>
    simp only [refValidB, storeLen, decide_eq_true_eq] at h ⊢
    simpa [refAppend, writeL_length] using h
  | qf l => rfl

theorem loopReqsGet : ∀ (fuel : Nat) (exec : Nat → Envelope) (s : Store)
    (buf : WorkRef) (cur entire : String), refValidB s buf = true →
    ∀ i (h : i < ((doConcatLoop fuel exec s buf cur entire).2.1).length),
      ((doConcatLoop fuel exec s buf cur entire).2.1).get ⟨i, h⟩ =
        (fragList exec cur (i + 1)).foldl valAppend (refSnapshot s buf) := by
  intro fuel
  induction fuel with
  | zero =>
    intro exec s buf cur entire _ i h
    simp [doConcatLoop] at h
  | succ f ih =>
    intro exec s buf cur entire hV i h
    have hsnap := refAppend_snapshot s buf cur hV
    have hval := refAppend_valid s buf cur hV
    by_cases hT : (exec 0).is_truncated = true
    · have hcons : (doConcatLoop (f + 1) exec s buf cur entire).2.1 =
          refSnapshot (refAppend s buf cur).1 (refAppend s buf cur).2 ::
            (doConcatLoop f (fun n => exec (n + 1)) (refAppend s buf cur).1
              (refAppend s buf cur).2 (exec 0).result
              (entire ++ (exec 0).result)).2.1 := by
        simp [doConcatLoop, hT]
      cases i with
      | zero =>
        have : ((doConcatLoop (f + 1) exec s buf cur entire).2.1).get ⟨0, h⟩ =
            refSnapshot (refAppend s buf cur).1 (refAppend s buf cur).2 := by
          rw [List.get_of_eq hcons]
          rfl
        rw [this, hsnap]
        rfl
      | succ j =>
        have hj : j < ((doConcatLoop f (fun n => exec (n + 1)) (refAppend s buf cur).1
            (refAppend s buf cur).2 (exec 0).result
            (entire ++ (exec 0).result)).2.1).length := by
          have h2 := h
          rw [hcons] at h2
          simpa using h2
        have hstep := ih (fun n => exec (n + 1)) (refAppend s buf cur).1
          (refAppend s buf cur).2 (exec 0).result (entire ++ (exec 0).result) hval j hj
        have : ((doConcatLoop (f + 1) exec s buf cur entire).2.1).get ⟨j + 1, h⟩ =
            ((doConcatLoop f (fun n => exec (n + 1)) (refAppend s buf cur).1
              (refAppend s buf cur).2 (exec 0).result
              (entire ++ (exec 0).result)).2.1).get ⟨j, hj⟩ := by
          rw [List.get_of_eq hcons]
          rfl
        rw [this, hstep, hsnap]
        rfl
    · have hsingle : (doConcatLoop (f + 1) exec s buf cur entire).2.1 =
          [refSnapshot (refAppend s buf cur).1 (refAppend s buf cur).2] := by
        simp [doConcatLoop, hT]
      have hi : i = 0 := by
        have h2 := h
        rw [hsingle] at h2
        simpa using h2
      subst hi
      have : ((doConcatLoop (f + 1) exec s buf cur entire).2.1).get ⟨0, h⟩ =
          refSnapshot (refAppend s buf cur).1 (refAppend s buf cur).2 := by
        rw [List.get_of_eq hsingle]
        rfl
      rw [this, hsnap]
      rfl

theorem streamReqsGet : ∀ (fuel : Nat) (exec : Nat → List Envelope) (s : Store)
    (addr : Nat) (cur : String) (out : List Envelope × List (List Record) × Store),
    addr < storeLen s →
    streamConcatLoop fuel exec s addr cur = some out →
    ∀ i (h : i < out.2.1.length),
      out.2.1.get ⟨i, h⟩ = (fragListS exec cur (i + 1)).foldl recRound (readL s addr) := by
  intro fuel
  induction fuel with
  | zero =>
    intro exec s addr cur out _ hrun
    exact absurd hrun (by simp [streamConcatLoop])
  | succ f ih =>
    intro exec s addr cur out hA hrun i h
    simp only [streamConcatLoop] at hrun
    have hread : readL (writeL s addr (readL s addr ++ roundRecords cur)) addr =
        recRound (readL s addr) cur := by
      rw [readL_writeL_same s addr _ (by simpa [storeLen] using hA)]
      rfl
    have hA2 : addr < storeLen (writeL s addr (readL s addr ++ roundRecords cur)) := by
      simpa [storeLen, writeL_length] using hA
    by_cases hT : lastTruncD (exec 0) = true
    · rw [if_pos hT] at hrun
      cases hrec : streamConcatLoop f (fun n => exec (n + 1))
          (writeL s addr (readL s addr ++ roundRecords cur)) addr
          (concatResults (exec 0)) with
      | none => rw [hrec] at hrun; exact absurd hrun (by simp)
      | some r =>
        rw [hrec] at hrun
        simp only [Option.some.injEq] at hrun
        have hreqs : out.2.1 =
            readL (writeL s addr (readL s addr ++ roundRecords cur)) addr :: r.2.1 := by
          rw [← hrun]
        cases i with
        | zero =>
          have : out.2.1.get ⟨0, h⟩ =
              readL (writeL s addr (readL s addr ++ roundRecords cur)) addr := by
            rw [List.get_of_eq hreqs]
            rfl
          rw [this, hread]
          rfl
        | succ j =>
          have hj : j < r.2.1.length := by
            have h2 := h
            rw [hreqs] at h2
            simpa using h2
          have hstep := ih (fun n => exec (n + 1)) _ addr (concatResults (exec 0)) r hA2 hrec j hj
          have : out.2.1.get ⟨j + 1, h⟩ = r.2.1.get ⟨j, hj⟩ := by
            rw [List.get_of_eq hreqs]
            rfl
          rw [this, hstep, hread]
          rfl
    · rw [if_neg hT] at hrun
      simp only [Option.some.injEq] at hrun
      have hreqs : out.2.1 =
          [readL (writeL s addr (readL s addr ++ roundRecords cur)) addr] := by
        rw [← hrun]
      have hi : i = 0 := by
        have h2 := h
        rw [hreqs] at h2
        simpa using h2
      subst hi
      have : out.2.1.get ⟨0, h⟩ =
          readL (writeL s addr (readL s addr ++ roundRecords cur)) addr := by
        rw [List.get_of_eq hreqs]
        rfl
      rw [this, hread]
      rfl

/-! ### Store-frame lemmas -/

theorem loopStore : ∀ (fuel : Nat) (exec : Nat → Envelope) (s : Store)
    (buf : WorkRef) (cur entire : String) (a : Nat),
    (∀ b, buf = WorkRef.recordsAt b → a ≠ b) →
    readL ((doConcatLoop fuel exec s buf cur entire).2.2) a = readL s a := by
  intro fuel
  induction fuel with
  | zero => intro exec s buf cur entire a _; rfl
  | succ f ih =>
    intro exec s buf cur entire a hNe
    have hpres : readL (refAppend s buf cur).1 a = readL s a := by
      cases buf with
      | recordsAt b =>
        exact readL_writeL_other s a b _ (hNe b rfl)
      | qf l => rfl
    have hNe2 : ∀ b, (refAppend s buf cur).2 = WorkRef.recordsAt b → a ≠ b := by
      cases buf with
      | recordsAt b =>
        intro b2 hb2
        simp only [refAppend, WorkRef.recordsAt.injEq] at hb2
        rw [← hb2]
        exact hNe b rfl
      | qf l =>
        intro b2 hb2
        simp [refAppend] at hb2
    by_cases hT : (exec 0).is_truncated = true
    · simp only [doConcatLoop, hT, if_true]
      rw [ih (fun n => exec (n + 1)) (refAppend s buf cur).1 (refAppend s buf cur).2
        (exec 0).result (entire ++ (exec 0).result) a hNe2]
      exact hpres
    · simp only [doConcatLoop, hT, if_false]
      exact hpres

theorem streamLoopStore : ∀ (fuel : Nat) (exec : Nat → List Envelope) (s : Store)
    (addr : Nat) (cur : String) (out : List Envelope × List (List Record) × Store)
    (a : Nat), a ≠ addr →
    streamConcatLoop fuel exec s addr cur = some out →
    readL out.2.2 a = readL s a := by
  intro fuel
  induction fuel with
  | zero =>
    intro exec s addr cur out a _ hrun
    exact absurd hrun (by simp [streamConcatLoop])
  | succ f ih =>
    intro exec s addr cur out a hNe hrun
    simp only [streamConcatLoop] at hrun
    have hpres : readL (writeL s addr (readL s addr ++ roundRecords cur)) a = readL s a :=
      readL_writeL_other s a addr _ hNe
    by_cases hT : lastTruncD (exec 0) = true
    · rw [if_pos hT] at hrun
      cases hrec : streamConcatLoop f (fun n => exec (n + 1))
          (writeL s addr (readL s addr ++ roundRecords cur)) addr
          (concatResults (exec 0)) with
      | none => rw [hrec] at hrun; exact absurd hrun (by simp)
      | some r =>
        rw [hrec] at hrun
        simp only [Option.some.injEq] at hrun
        have hs : out.2.2 = r.2.2 := by rw [← hrun]
        rw [hs, ih (fun n => exec (n + 1)) _ addr (concatResults (exec 0)) r a hNe hrec]
        exact hpres
    · rw [if_neg hT] at hrun
      simp only [Option.some.injEq] at hrun
      have hs : out.2.2 = writeL s addr (readL s addr ++ roundRecords cur) := by
        rw [← hrun]
      rw [hs]
      exact hpres

/-! ### Record-form and dispatch lemmas -/

theorem loopAllRecords : ∀ (fuel : Nat) (exec : Nat → Envelope) (s : Store)
    (b : Nat) (cur entire : String),
    ((doConcatLoop fuel exec s (WorkRef.recordsAt b) cur entire).2.1).all isRecordsForm = true := by
  intro fuel
  induction fuel with
  | zero => intro exec s b cur entire; rfl
  | succ f ih =>
    intro exec s b cur entire
    by_cases hT : (exec 0).is_truncated = true
    · simp only [doConcatLoop, hT, if_true, refAppend, List.all_cons,
        refSnapshot, isRecordsForm, Bool.true_and]
      exact ih (fun n => exec (n + 1)) _ b (exec 0).result (entire ++ (exec 0).result)
    · simp [doConcatLoop, hT, refAppend, refSnapshot, isRecordsForm]

theorem ebPathTaken_iff (cfg : QfConfig) (model : Option String) :
    ebPathTaken cfg model = true ↔
      (cfg.DISABLE_EB_SDK = false ∧ cfg.EB_SDK_INSTALLED = true ∧
        (model = some "ERNIE-Bot-turbo" ∨ model = some "ERNIE-Bot")) := by
  cases model with
  | none => simp [ebPathTaken]
  | some mn =>
    simp only [ebPathTaken, Bool.and_eq_true, Bool.not_eq_true', Option.some.injEq]
    constructor
    · rintro ⟨⟨h1, h2⟩, h3⟩
      simp only [List.contains_eq_any_beq, List.any_cons, List.any_nil,
        Bool.or_eq_true, beq_iff_eq, Bool.false_eq_true, or_false] at h3
      exact ⟨h1, h2, h3⟩
    · rintro ⟨h1, h2, h3⟩
      refine ⟨⟨h1, h2⟩, ?_⟩
      simp only [List.contains_eq_any_beq, List.any_cons, List.any_nil,
        Bool.or_eq_true, beq_iff_eq, Bool.false_eq_true, or_false]
      exact h3

/-! ### Missing-field error lemma -/

theorem loopError : ∀ (N : Nat) (fuel : Nat) (exec : Nat → RawEnvelope)
    (msgs : WorkBuf) (cur entire : String),
    (∀ k, k < N → (exec k).result.isSome = true ∧ (exec k).is_truncated = some true) →
    ((exec N).result = none ∨ (exec N).is_truncated = none) →
    N < fuel →
    isError (doConcatLoopE fuel exec msgs cur entire) = true := by
  intro N
  induction N with
  | zero =>
    intro fuel exec msgs cur entire _ hMiss hfuel
    cases fuel with
    | zero => omega
    | succ f =>
      rcases hMiss with hm | hm
      · simp [doConcatLoopE, rawResult, hm, isError]
      · cases hres : (exec 0).result with
        | none => simp [doConcatLoopE, rawResult, hres, isError]
        | some v => simp [doConcatLoopE, rawResult, rawTruncated, hres, hm, isError]
  | succ M ih =>
    intro fuel exec msgs cur entire hAll hMiss hfuel
    cases fuel with
    | zero => omega
    | succ f =>
      obtain ⟨hsome, htr⟩ := hAll 0 (by omega)
      cases hres : (exec 0).result with
      | none => rw [hres] at hsome; simp at hsome
      | some v =>
        have hrec := ih f (fun n => exec (n + 1)) (valAppend msgs cur) v (entire ++ v)
          (fun k hk => hAll (k + 1) (by omega)) hMiss (by omega)
        simp only [doConcatLoopE, rawResult, rawTruncated, hres, htr, if_true]
        exact hrec

/-! ### Concrete fixtures for witnesses and counterexamples -/

/-- A store holding one caller-owned record list `[{user, "hi"}]` at
address 0. -/
def st0 : Store := [[⟨"user", "hi"⟩]]

/-- The caller's raw record-list argument: the list object at address 0. -/
def m0 : MessagesIn := MessagesIn.recordsRef 0

/-- A caller-supplied `QfMessages` buffer with one User("hi") entry. -/
def mQf1 : MessagesIn := MessagesIn.qf [⟨QfRole.User, "hi"⟩]

/-- The concrete scenario's responses: `{result:"ab", is_truncated:true}`
then `{result:"cd", is_truncated:false}`. -/
def rsEx : List Envelope := [⟨"ab", true, false, []⟩, ⟨"cd", false, true, []⟩]

/-- Streaming executor whose first stream is a single non-truncated
chunk; continuation calls reply with a non-truncated empty chunk. -/
def ex2 : Nat → List Envelope := fun n =>
  if n = 0 then [⟨"ab", false, true, []⟩] else [⟨"", false, true, []⟩]

/-- Streaming executor whose first stream ends truncated and whose first
continuation stream ends non-truncated. -/
def ex3 : Nat → List Envelope := fun n =>
  if n = 0 then [⟨"ab", true, false, []⟩] else [⟨"cd", false, true, []⟩]

/-- Executor that reports truncation forever. -/
def allTrunc : Nat → Envelope := fun _ => ⟨"x", true, false, []⟩

/-- Raw executor: first reply has both fields, second reply lacks
`result`. -/
def exR : Nat → RawEnvelope := fun n =>
  if n = 0 then ⟨some "ab", some true, []⟩ else ⟨none, some true, []⟩

/-! ### Claim theorems -/

/-- Claim C1: for every non-streaming `do`/`ado` call with
`auto_concat_truncate=True`, if the executor yields N envelopes with
envelopes 1..N-1 truncated and envelope N not truncated, the returned
value is a single envelope whose `body["result"]` is the concatenation of
all N result fragments in call order and whose `is_truncated` flag is
false. -/
theorem c1_nonstream_concat (rs : List Envelope) (h0 : rs ≠ [])
    (hInit : ∀ i, i + 1 < rs.length → (rs.getD i dfltEnv).is_truncated = true)
    (hLast : (rs.getLast h0).is_truncated = false)
    (fuel : Nat) (hf : rs.length ≤ fuel) (s : Store) (m : MessagesIn) :
    ∃ env reqs s2,
      doNonStream s m (execOfList rs) fuel true = (some env, reqs, s2) ∧
      env.result = joinResults rs ∧ env.is_truncated = false := by
  obtain ⟨env, reqs, s2, h1, h2, h3, _⟩ :=
    doNonStreamSuccess rs (truncSeqP_of_indexed rs h0 hInit hLast) fuel hf s m
  exact ⟨env, reqs, s2, h1, h2, h3⟩

/-- Witness for C1: the concrete scenario messages=[{user,"hi"}], first
response {result:"ab", is_truncated:true}, second {result:"cd",
is_truncated:false}, yielding result "abcd" and is_truncated false. -/
theorem c1_nonstream_concat_witness :
    ∃ env reqs s2,
      doNonStream st0 m0 (execOfList rsEx) 2 true = (some env, reqs, s2) ∧
      env.result = "abcd" ∧ env.is_truncated = false := by
  obtain ⟨env, reqs, s2, h1, h2, h3⟩ :=
    c1_nonstream_concat rsEx (by decide)
      (by
        intro i hi
        have hlen : i = 0 := by
          have h4 : i + 1 < 2 := by simpa [rsEx] using hi
          omega
        subst hlen
        decide)
      (by decide) 2 (by decide) st0 m0
  refine ⟨env, reqs, s2, h1, ?_, h3⟩
  rw [h2]
  decide

/-- Claim C2 (code-bug exhibit): the streaming continuation helper
initializes `is_truncated` to `True` without consulting the exhausted
first stream's flags (line 352), so even when the first stream's terminal
envelope reports `is_truncated=false` a continuation request is still
issued: with a single-chunk non-truncated first stream, two executor
calls are made instead of one. -/
theorem c2_stream_always_continues :
    lastTruncD (ex2 0) = false ∧
    (doStream st0 m0 ex2 5).map (fun o => o.2.1.length) = some 2 := by
  exact ⟨rfl, rfl⟩

/-- Counterexample to claim C3 as stated: on the streaming path with a
raw record-list caller, the continuation appends go directly to the
caller's own list object (no deep copy is made there), so after the call
the caller's list no longer holds exactly its original entries. -/
theorem c3_caller_mutation_counterexample :
    (doStream st0 m0 ex3 5).map (fun o => readL o.2.2 0) ≠ some (readL st0 0) := by
  decide

/-- Claim C3 (amended): the non-streaming continuation path never mutates
any pre-existing list object — its appends are confined to the deep copy
made at the start of the continuation sequence; the streaming path with a
`QfMessages` caller also leaves every pre-existing list object (and the
buffer itself) unchanged, its appends going to the fresh list produced by
normalization.  (With a raw record-list caller, the streaming path
appends to the caller's own list, per the counterexample.) -/
theorem c3_mutation_scope_amended :
    (∀ (s : Store) (m : MessagesIn) (exec : Nat → Envelope) (fuel : Nat)
        (ac : Bool) (a : Nat), a < storeLen s →
      readL ((doNonStream s m exec fuel ac).2.2) a = readL s a) ∧
    (∀ (s : Store) (l : List QfMessage) (exec : Nat → List Envelope) (fuel : Nat)
        (out : List Envelope × List WorkBuf × Store) (a : Nat), a < storeLen s →
      doStream s (MessagesIn.qf l) exec fuel = some out →
      readL out.2.2 a = readL s a) := by
  constructor
  · intro s m exec fuel ac a hA
    cases ac with
    | false => rfl
    | true =>
      cases m with
      | recordsRef r =>
        by_cases hT : (exec 0).is_truncated = true
        · simp only [doNonStream, Bool.true_eq_false, if_false, hT, if_true,
            deepcopyIn, allocL]
          rw [loopStore fuel (fun n => exec (n + 1)) _ _ _ _ a
            (by
              intro b hb
              simp only [WorkRef.recordsAt.injEq] at hb
              rw [← hb]
              intro hEq
              rw [hEq] at hA
              simp [storeLen] at hA)]
          exact readL_append_lt s _ a (by simpa [storeLen] using hA)
        · simp only [doNonStream, Bool.true_eq_false, if_false, hT,
            deepcopyIn, allocL]
          exact readL_append_lt s _ a (by simpa [storeLen] using hA)
      | qf l =>
        by_cases hT : (exec 0).is_truncated = true
        · simp only [doNonStream, Bool.true_eq_false, if_false, hT, if_true,
            deepcopyIn]
          rw [loopStore fuel (fun n => exec (n + 1)) _ _ _ _ a
            (by intro b hb; simp at hb)]
        · simp [doNonStream, hT, deepcopyIn]
  · intro s l exec fuel out a hA hrun
    simp only [doStream, allocL] at hrun
    cases hrec : streamConcatLoop fuel (fun n => exec (n + 1))
        (s ++ [qfToList l]) s.length (concatResults (exec 0)) with
    | none => rw [hrec] at hrun; exact absurd hrun (by simp)
    | some r =>
      rw [hrec] at hrun
      simp only [Option.some.injEq] at hrun
      have hs : out.2.2 = r.2.2 := by rw [← hrun]
      rw [hs, streamLoopStore fuel (fun n => exec (n + 1)) _ s.length _ r a
        (by
          intro hEq
          rw [hEq] at hA
          simp [storeLen] at hA) hrec]
      exact readL_append_lt s _ a (by simpa [storeLen] using hA)

/-- Witness for the amended C3: the concrete truncated run leaves the
caller's list object unchanged on the non-streaming path, and the
streaming run with a `QfMessages` caller leaves address 0 unchanged. -/
theorem c3_mutation_scope_amended_witness :
    readL ((doNonStream st0 m0 (execOfList rsEx) 2 true).2.2) 0 = readL st0 0 ∧
    (doStream st0 mQf1 ex3 5).map (fun o => readL o.2.2 0) = some (readL st0 0) := by
  constructor
  · exact c3_mutation_scope_amended.1 st0 m0 (execOfList rsEx) 2 true 0 (by decide)
  · cases hrec : doStream st0 mQf1 ex3 5 with
    | none => exact absurd hrec (by decide)
    | some r =>
      show some (readL r.2.2 0) = some (readL st0 0)
      rw [c3_mutation_scope_amended.2 st0 [⟨QfRole.User, "hi"⟩] ex3 5 r 0
        (by decide) hrec]

/-- Counterexample to claim C4 as stated: when the caller passes a
`QfMessages` buffer and the first response is truncated, the non-streaming
continuation requests carry the deep-copied `QfMessages` object itself
(line 284 copies the union-typed argument; line 293 stores it back into
`kwargs`), not the plain record-list transport form: not every issued
request is in record-list form. -/
theorem c4_transport_form_counterexample :
    ((doNonStream st0 mQf1 (execOfList rsEx) 5 true).2.1.all isRecordsForm) = false := by
  decide

theorem allRecordsMap : ∀ (l : List (List Record)),
    (l.map WorkBuf.records).all isRecordsForm = true := by
  intro l
  induction l with
  | nil => rfl
  | cons x t ih => simp [isRecordsForm, ih]

/-- Claim C4 (amended): the first request always carries the plain
record-list transport form (normalization at the entry boundary); every
streaming continuation request also carries a record list, and so does
every non-streaming continuation request when the caller passed a raw
record list — but non-streaming continuation requests after a
`QfMessages` caller carry the deep-copied `QfMessages` buffer itself. -/
theorem c4_transport_form_amended :
    (∀ (s : Store) (m : MessagesIn) (exec : Nat → Envelope) (fuel : Nat) (ac : Bool),
      ((doNonStream s m exec fuel ac).2.1).head? =
        some (WorkBuf.records (normalizeIn s m))) ∧
    (∀ (s : Store) (a : Nat) (exec : Nat → Envelope) (fuel : Nat) (ac : Bool),
      ((doNonStream s (MessagesIn.recordsRef a) exec fuel ac).2.1).all isRecordsForm = true) ∧
    (∀ (s : Store) (m : MessagesIn) (exec : Nat → List Envelope) (fuel : Nat)
        (out : List Envelope × List WorkBuf × Store),
      doStream s m exec fuel = some out →
      out.2.1.all isRecordsForm = true) := by
  refine ⟨?_, ?_, ?_⟩
  · intro s m exec fuel ac
    cases ac with
    | false => rfl
    | true =>
      by_cases hT : (exec 0).is_truncated = true
      · simp [doNonStream, hT]
      · simp [doNonStream, hT]
  · intro s a exec fuel ac
    cases ac with
    | false => rfl
    | true =>
      by_cases hT : (exec 0).is_truncated = true
      · simp only [doNonStream, Bool.true_eq_false, if_false, hT, if_true,
          deepcopyIn, allocL, List.all_cons, normalizeIn, isRecordsForm,
          Bool.true_and]
        exact loopAllRecords fuel (fun n => exec (n + 1)) _ s.length
          (exec 0).result (exec 0).result
      · simp [doNonStream, hT, isRecordsForm]
  · intro s m exec fuel out hrun
    cases m with
    | recordsRef a =>
      simp only [doStream] at hrun
      cases hrec : streamConcatLoop fuel (fun n => exec (n + 1)) s a
          (concatResults (exec 0)) with
      | none => rw [hrec] at hrun; exact absurd hrun (by simp)
      | some r =>
        rw [hrec] at hrun
        simp only [Option.some.injEq] at hrun
        have hreqs : out.2.1 =
            WorkBuf.records (normalizeIn s (MessagesIn.recordsRef a)) ::
              r.2.1.map WorkBuf.records := by rw [← hrun]
        rw [hreqs]
        simp only [List.all_cons, isRecordsForm, Bool.true_and]
        exact allRecordsMap r.2.1
    | qf l =>
      simp only [doStream, allocL] at hrun
      cases hrec : streamConcatLoop fuel (fun n => exec (n + 1)) (s ++ [qfToList l])
          s.length (concatResults (exec 0)) with
      | none => rw [hrec] at hrun; exact absurd hrun (by simp)
      | some r =>
        rw [hrec] at hrun
        simp only [Option.some.injEq] at hrun
        have hreqs : out.2.1 =
            WorkBuf.records (normalizeIn s (MessagesIn.qf l)) ::
              r.2.1.map WorkBuf.records := by rw [← hrun]
        rw [hreqs]
        simp only [List.all_cons, isRecordsForm, Bool.true_and]
        exact allRecordsMap r.2.1

/-- Witness for the amended C4: concrete runs of each conjunct. -/
theorem c4_transport_form_amended_witness :
    ((doNonStream st0 mQf1 (execOfList rsEx) 2 true).2.1).head? =
      some (WorkBuf.records (normalizeIn st0 mQf1)) ∧
    ((doNonStream st0 (MessagesIn.recordsRef 0) (execOfList rsEx) 2 true).2.1).all isRecordsForm = true ∧
    (doStream st0 m0 ex3 5).map (fun o => o.2.1.all isRecordsForm) = some true := by
  refine ⟨c4_transport_form_amended.1 st0 mQf1 (execOfList rsEx) 2 true, ?_, ?_⟩
  · exact c4_transport_form_amended.2.1 st0 0 (execOfList rsEx) 2 true
  · cases hrec : doStream st0 m0 ex3 5 with
    | none => exact absurd hrec (by decide)
    | some r =>
      show some (r.2.1.all isRecordsForm) = some true
      rw [c4_transport_form_amended.2.2 st0 m0 ex3 5 r hrec]

/-- Claim C5: in streaming mode with `auto_concat_truncate=True`, the
producer yields every envelope of every underlying call, unchanged and in
emission order, across continuation boundaries, and the total number of
envelopes yielded equals the sum over all calls of that call's envelope
count. -/
theorem c5_stream_reemission (s : Store) (m : MessagesIn)
    (exec : Nat → List Envelope) (fuel : Nat)
    (out : List Envelope × List WorkBuf × Store)
    (h : doStream s m exec fuel = some out) :
    out.1 = callsConcat exec out.2.1.length ∧
    out.1.length =
      ((List.range out.2.1.length).map (fun i => (exec i).length)).sum := by
  have main : out.1 = callsConcat exec out.2.1.length := by
    cases m with
    | recordsRef a =>
      simp only [doStream] at h
      cases hrec : streamConcatLoop fuel (fun n => exec (n + 1)) s a
          (concatResults (exec 0)) with
      | none => rw [hrec] at h; exact absurd h (by simp)
      | some r =>
        rw [hrec] at h
        simp only [Option.some.injEq] at h
        have hy := streamLoopYields fuel (fun n => exec (n + 1)) s a
          (concatResults (exec 0)) r hrec
        rw [← h]
        simp only [List.length_cons, List.length_map, callsConcat]
        rw [hy]
    | qf l =>
      simp only [doStream, allocL] at h
      cases hrec : streamConcatLoop fuel (fun n => exec (n + 1)) (s ++ [qfToList l])
          s.length (concatResults (exec 0)) with
      | none => rw [hrec] at h; exact absurd h (by simp)
      | some r =>
        rw [hrec] at h
        simp only [Option.some.injEq] at h
        have hy := streamLoopYields fuel (fun n => exec (n + 1)) _ s.length
          (concatResults (exec 0)) r hrec
        rw [← h]
        simp only [List.length_cons, List.length_map, callsConcat]
        rw [hy]
  refine ⟨main, ?_⟩
  rw [main, callsConcat_length]

/-- Witness for C5: a concrete two-call streaming run re-emits the
concatenation of both calls' chunk lists. -/
theorem c5_stream_reemission_witness :
    (doStream st0 m0 ex3 5).map (fun o => o.1) =
      (doStream st0 m0 ex3 5).map (fun o => callsConcat ex3 o.2.1.length) := by
  cases hrec : doStream st0 m0 ex3 5 with
  | none => rfl
  | some r =>
    show some r.1 = some (callsConcat ex3 r.2.1.length)
    rw [(c5_stream_reemission st0 m0 ex3 5 r hrec).1]

/-- Claim C6: each continuation round appends exactly two entries to the
working message buffer — an Assistant message holding the previous
round's fragment, then a User message with literal content "继续" — so the
i-th issued continuation request's buffer is the entry buffer extended by
i+1 such rounds: its length exceeds the entry buffer's by 2(i+1) and the
entry buffer is a prefix of it (no entry reordered, modified or removed).
This holds on the non-streaming loop (first conjunct) and the streaming
loop (second conjunct). -/
theorem c6_round_growth :
    (∀ (fuel : Nat) (exec : Nat → Envelope) (s : Store) (buf : WorkRef)
        (cur entire : String), refValidB s buf = true →
      ∀ i (h : i < ((doConcatLoop fuel exec s buf cur entire).2.1).length),
        ((doConcatLoop fuel exec s buf cur entire).2.1).get ⟨i, h⟩ =
          (fragList exec cur (i + 1)).foldl valAppend (refSnapshot s buf) ∧
        bufLen (((doConcatLoop fuel exec s buf cur entire).2.1).get ⟨i, h⟩) =
          bufLen (refSnapshot s buf) + 2 * (i + 1) ∧
        bufData (refSnapshot s buf) <+:
          bufData (((doConcatLoop fuel exec s buf cur entire).2.1).get ⟨i, h⟩)) ∧
    (∀ (fuel : Nat) (exec : Nat → List Envelope) (s : Store) (addr : Nat)
        (cur : String) (out : List Envelope × List (List Record) × Store),
      addr < storeLen s →
      streamConcatLoop fuel exec s addr cur = some out →
      ∀ i (h : i < out.2.1.length),
        out.2.1.get ⟨i, h⟩ =
          (fragListS exec cur (i + 1)).foldl recRound (readL s addr) ∧
        (out.2.1.get ⟨i, h⟩).length = (readL s addr).length + 2 * (i + 1) ∧
        readL s addr <+: out.2.1.get ⟨i, h⟩) := by
  constructor
  · intro fuel exec s buf cur entire hV i h
    have hget := loopReqsGet fuel exec s buf cur entire hV i h
    refine ⟨hget, ?_, ?_⟩
    · rw [hget, foldl_valAppend_len, fragList_length]
    · rw [hget]
      exact foldl_valAppend_data _ _
  · intro fuel exec s addr cur out hA hrun i h
    have hget := streamReqsGet fuel exec s addr cur out hA hrun i h
    refine ⟨hget, ?_, ?_⟩
    · rw [hget, foldl_recRound_len, fragListS_length]
    · rw [hget]
      exact foldl_recRound_sub _ _

/-- Witness for C6: one concrete continuation round on each loop. -/
theorem c6_round_growth_witness :
    (((doConcatLoop 3 (execOfList [⟨"cd", false, true, []⟩]) st0
        (WorkRef.recordsAt 0) "ab" "ab").2.1).get ⟨0, by decide⟩ =
      (fragList (execOfList [⟨"cd", false, true, []⟩]) "ab" 1).foldl valAppend
        (refSnapshot st0 (WorkRef.recordsAt 0)) ∧
     bufLen (((doConcatLoop 3 (execOfList [⟨"cd", false, true, []⟩]) st0
        (WorkRef.recordsAt 0) "ab" "ab").2.1).get ⟨0, by decide⟩) =
      bufLen (refSnapshot st0 (WorkRef.recordsAt 0)) + 2 * (0 + 1) ∧
     bufData (refSnapshot st0 (WorkRef.recordsAt 0)) <+:
      bufData (((doConcatLoop 3 (execOfList [⟨"cd", false, true, []⟩]) st0
        (WorkRef.recordsAt 0) "ab" "ab").2.1).get ⟨0, by decide⟩)) := by
  exact c6_round_growth.1 3 (execOfList [⟨"cd", false, true, []⟩]) st0
    (WorkRef.recordsAt 0) "ab" "ab" (by decide) 0 (by decide)

/-- Claim C7: for every non-streaming `do` call with
`auto_concat_truncate=True` whose first executor response reports
`is_truncated=false`, exactly that first response is returned unchanged
(its body is not amended), and no continuation request is issued: the
only issued request is the first one. -/
theorem c7_nonstream_no_continuation (s : Store) (m : MessagesIn)
    (exec : Nat → Envelope) (fuel : Nat)
    (h : (exec 0).is_truncated = false) :
    doNonStream s m exec fuel true =
      (some (exec 0), [WorkBuf.records (normalizeIn s m)], (deepcopyIn s m).1) := by
  simp [doNonStream, h]

/-- Witness for C7: a concrete non-truncated first response is returned
as-is with a single issued request. -/
theorem c7_nonstream_no_continuation_witness :
    doNonStream st0 m0 (execOfList [⟨"cd", false, true, []⟩]) 5 true =
      (some (execOfList [⟨"cd", false, true, []⟩] 0),
        [WorkBuf.records (normalizeIn st0 m0)], (deepcopyIn st0 m0).1) :=
  c7_nonstream_no_continuation st0 m0 (execOfList [⟨"cd", false, true, []⟩]) 5
    (by decide)

/-- Claim C8: `do`/`ado` delegates to the erniebot backend iff
`DISABLE_EB_SDK` is false, `EB_SDK_INSTALLED` is true, and the model is
one of exactly {"ERNIE-Bot-turbo", "ERNIE-Bot"}; on that path
"ERNIE-Bot" is first remapped to "ernie-bot-3.5", the name is
lower-cased, and the backend's result is returned directly — the outcome
is independent of the executor, the fuel and the `auto_concat_truncate`
flag, so the continuation protocol never applies there. -/
theorem c8_eb_dispatch (cfg : QfConfig) (model : Option String) (s : Store)
    (m : MessagesIn) (exec : Nat → Envelope) (fuel : Nat) (ac : Bool) :
    ((∃ r, chatDo cfg model s m exec fuel ac = DoOutcome.eb r) ↔
      (cfg.DISABLE_EB_SDK = false ∧ cfg.EB_SDK_INSTALLED = true ∧
        (model = some "ERNIE-Bot-turbo" ∨ model = some "ERNIE-Bot"))) ∧
    (∀ (exec2 : Nat → Envelope) (fuel2 : Nat) (ac2 : Bool),
      ebPathTaken cfg model = true →
      chatDo cfg model s m exec fuel ac = chatDo cfg model s m exec2 fuel2 ac2) ∧
    (model = some "ERNIE-Bot" → ebPathTaken cfg model = true →
      chatDo cfg model s m exec fuel ac = DoOutcome.eb "ernie-bot-3.5") ∧
    (model = some "ERNIE-Bot-turbo" → ebPathTaken cfg model = true →
      chatDo cfg model s m exec fuel ac = DoOutcome.eb "ernie-bot-turbo") := by
  refine ⟨?_, ?_, ?_, ?_⟩
  · constructor
    · rintro ⟨r, hr⟩
      cases model with
      | none => simp [chatDo] at hr
      | some mn =>
        by_cases hP : ebPathTaken cfg (some mn) = true
        · exact (ebPathTaken_iff cfg (some mn)).1 hP
        · simp [chatDo, hP] at hr
    · intro hcond
      have hP : ebPathTaken cfg model = true := (ebPathTaken_iff cfg model).2 hcond
      rcases hcond.2.2 with hmn | hmn
      · subst hmn
        exact ⟨ebTargetName "ERNIE-Bot-turbo", by simp [chatDo, hP]⟩
      · subst hmn
        exact ⟨ebTargetName "ERNIE-Bot", by simp [chatDo, hP]⟩
  · intro exec2 fuel2 ac2 hP
    cases model with
    | none => simp [ebPathTaken] at hP
    | some mn => simp [chatDo, hP]
  · intro hmn hP
    subst hmn
    simp only [chatDo, hP, if_true]
    rfl
  · intro hmn hP
    subst hmn
    simp only [chatDo, hP, if_true]
    rfl

/-- Witness for C8: with the erniebot path enabled, model "ERNIE-Bot" is
delegated under the remapped lower-cased name, regardless of
`auto_concat_truncate`. -/
theorem c8_eb_dispatch_witness :
    chatDo ⟨false, true⟩ (some "ERNIE-Bot") st0 m0 (execOfList rsEx) 3 true =
      DoOutcome.eb "ernie-bot-3.5" :=
  (c8_eb_dispatch ⟨false, true⟩ (some "ERNIE-Bot") st0 m0 (execOfList rsEx) 3
    true).2.2.1 rfl (by decide)

/-- Claim C9: the non-streaming continuation loop has no built-in round
cap: for every N ≥ 1 there is an executor behavior (N-1 truncated
responses then a non-truncated one, here `truncScript n` with N = n+1)
under which exactly N calls are issued and the loop terminates, and if
every response reports `is_truncated=true` the loop never terminates (no
amount of fuel produces a result). -/
theorem c9_unbounded_loop :
    (∀ (n fuel : Nat), n + 1 ≤ fuel → ∀ (s : Store) (m : MessagesIn),
      (doNonStream s m (execOfList (truncScript n)) fuel true).1.isSome = true ∧
      (doNonStream s m (execOfList (truncScript n)) fuel true).2.1.length = n + 1) ∧
    (∀ (exec : Nat → Envelope), (∀ k, (exec k).is_truncated = true) →
      ∀ (fuel : Nat) (s : Store) (m : MessagesIn),
        (doNonStream s m exec fuel true).1 = none) := by
  constructor
  · intro n fuel hf s m
    obtain ⟨env, reqs, s2, h1, _, _, hLen⟩ :=
      doNonStreamSuccess (truncScript n) (truncScript_truncSeqP n) fuel
        (by rw [truncScript_length]; exact hf) s m
    rw [h1]
    refine ⟨rfl, ?_⟩
    rw [truncScript_length] at hLen
    simpa using hLen
  · intro exec hAll fuel s m
    simp only [doNonStream, Bool.true_eq_false, if_false, hAll 0, if_true]
    exact loopNone fuel (fun n => exec (n + 1)) (fun n => hAll (n + 1))
      (deepcopyIn s m).1 (deepcopyIn s m).2 (exec 0).result (exec 0).result

/-- Witness for C9: with one truncated response then a final one, two
calls are issued; with an always-truncating executor no result is ever
produced. -/
theorem c9_unbounded_loop_witness :
    ((doNonStream st0 m0 (execOfList (truncScript 1)) 2 true).1.isSome = true ∧
     (doNonStream st0 m0 (execOfList (truncScript 1)) 2 true).2.1.length = 2) ∧
    (doNonStream st0 m0 allTrunc 4 true).1 = none :=
  ⟨c9_unbounded_loop.1 1 2 (by decide) st0 m0,
   c9_unbounded_loop.2 allTrunc (fun k => rfl) 4 st0 m0⟩

/-- Claim C10: if any non-streaming envelope consumed by the continuation
path (the first response or any continuation response) lacks a `result`
or `is_truncated` field, the operation fails with the field-access error
rather than silently defaulting, and no (partially assembled) envelope is
returned. -/
theorem c10_missing_field_error (exec : Nat → RawEnvelope) (N : Nat)
    (msgs : WorkBuf)
    (hAll : ∀ k, k < N →
      (exec k).result.isSome = true ∧ (exec k).is_truncated = some true)
    (hMiss : (exec N).result = none ∨ (exec N).is_truncated = none)
    (fuel : Nat) (hf : N ≤ fuel) :
    isError (doNonStreamE exec fuel msgs) = true := by
  cases N with
  | zero =>
    rcases hMiss with hm | hm
    · simp [doNonStreamE, rawResult, hm, isError]
    · cases hres : (exec 0).result with
      | none => simp [doNonStreamE, rawResult, hres, isError]
      | some v => simp [doNonStreamE, rawResult, rawTruncated, hres, hm, isError]
  | succ M =>
    obtain ⟨hsome, htr⟩ := hAll 0 (by omega)
    cases hres : (exec 0).result with
    | none => rw [hres] at hsome; simp at hsome
    | some v =>
      have hrec := loopError M fuel (fun n => exec (n + 1)) msgs v v
        (fun k hk => hAll (k + 1) (by omega)) hMiss (by omega)
      simp only [doNonStreamE, rawResult, rawTruncated, hres, htr, if_true]
      exact hrec

/-- Witness for C10: a continuation response lacking `result` aborts the
concrete run with an error. -/
theorem c10_missing_field_error_witness :
    isError (doNonStreamE exR 4 (WorkBuf.records [⟨"user", "hi"⟩])) = true :=
  c10_missing_field_error exR 1 (WorkBuf.records [⟨"user", "hi"⟩])
    (fun k hk => by
      have hk0 : k = 0 := by omega
      subst hk0
      exact ⟨rfl, rfl⟩)
    (Or.inl rfl) 4 (by decide)
